import Mathlib

/- Verification development for the GE-Library IPF extractor
   (optimized parallel variant, src/python/ipf_extractor_optimized.py).

   Conventions of the embedding:
   - bytes and code points are naturals; byte strings are lists of naturals;
   - machine 32-bit arithmetic is Nat arithmetic reduced modulo 2^32 where the
     source wraps;
   - the archive file is a list of bytes; a read at a position is drop/take
     (short reads at end of file arise naturally);
   - the cipher, the fixed password and the sanitizer live in the module
     ipf_extractor, which is imported by the optimized extractor but is not
     part of the sources at hand; those definitions are modelled from the
     specification (sections 4.1 and 4.4) and are marked as such. -/

namespace IPF

/-- Two to the power 32, the modulus of the source's 32-bit key arithmetic. -/
def mask32 : Nat := 4294967296

/-- Modelled from the spec: one step of the CRC-32 table construction with
polynomial 0xEDB88320 (spec 4.1); part of the absent module ipf_extractor. -/
def crc32_byte_step (x : Nat) : Nat :=
  if x % 2 = 1 then (x / 2) ^^^ 0xEDB88320 else x / 2

/-- Iterate the CRC step n times. -/
def crc32_shift : Nat → Nat → Nat
  | 0, x => x
  | n + 1, x => crc32_shift n (crc32_byte_step x)

/-- Modelled from the spec: entry b of the 256-entry CRC-32 table (spec 4.1). -/
def crc32_tab (b : Nat) : Nat := crc32_shift 8 b

/-- Modelled from the spec: crc32_update prev byte =
(prev >> 8) xor table[(prev xor byte) & 0xFF] (spec 4.1). -/
def crc32_update (prev b : Nat) : Nat :=
  (prev >>> 8) ^^^ crc32_tab ((prev ^^^ b) % 256)

/-- Cipher state: the three 32-bit key words of the PKWARE stream cipher. -/
structure ZipKeys where
  key0 : Nat
  key1 : Nat
  key2 : Nat
deriving DecidableEq, Repr

/-- Modelled from the spec: the per-byte key schedule update (spec 4.1);
part of the absent module ipf_extractor (class ZipCipher). -/
def update_keys (k : ZipKeys) (b : Nat) : ZipKeys :=
  let k0 := crc32_update k.key0 b
  let k1a := (k.key1 + (k0 &&& 0xFF)) % mask32
  let k1 := (k1a * 0x08088405 + 1) % mask32
  let k2 := crc32_update k.key2 (k1 >>> 24)
  ⟨k0, k1, k2⟩

/-- Modelled from the spec: key initialization from a password byte sequence,
starting from the fixed initial state (spec 4.1). -/
def init_keys (password : List Nat) : ZipKeys :=
  password.foldl update_keys ⟨0x12345678, 0x23456789, 0x34567890⟩

/-- Modelled from the spec: the keystream byte derived from the current state
(spec 4.1, decrypt step 1-2). -/
def decrypt_byte_key (k : ZipKeys) : Nat :=
  let temp := (k.key2 ||| 2) &&& 0xFFFF
  ((temp * (temp ^^^ 1)) >>> 8) &&& 0xFF

/-- Modelled from the spec: decrypt one ciphertext byte, returning the plain
byte and the advanced state (spec 4.1, decrypt steps 1-4). -/
def decrypt_byte (k : ZipKeys) (c : Nat) : Nat × ZipKeys :=
  let p := c ^^^ decrypt_byte_key k
  (p, update_keys k p)

/-- Modelled from the spec: decrypt a byte sequence, threading the cipher
state; returns the plaintext and the final state (ZipCipher.decrypt_data). -/
def decrypt_data (k : ZipKeys) : List Nat → List Nat × ZipKeys
  | [] => ([], k)
  | c :: cs =>
    let pk := decrypt_byte k c
    let rest := decrypt_data pk.2 cs
    (pk.1 :: rest.1, rest.2)

/-- Modelled from the spec: get_ipf_password returns the fixed 20-byte
password, a constant of the absent module ipf_extractor.  The spec treats the
exact bytes as opaque and does not list them; a fixed placeholder byte
sequence of length 20 stands in, and every theorem whose truth could depend
on the password value quantifies over the password instead. -/
def get_ipf_password : List Nat := List.replicate 20 0x5A

/-- Read len bytes of the archive at byte position pos (file.seek(pos) then
file.read(len)); short reads at end of file return fewer bytes. -/
def fread (archive : List Nat) (pos len : Nat) : List Nat :=
  (archive.drop pos).take len

/-- Little-endian 16-bit value of a 2-byte read (struct.unpack of a <H). -/
def le16 (bs : List Nat) : Nat :=
  match bs with
  | b0 :: b1 :: _ => b0 + 256 * b1
  | [b0] => b0
  | [] => 0

/-- Whether a byte is a UTF-8 continuation byte. -/
def utf8_cont (b : Nat) : Bool := 0x80 ≤ b && b < 0xC0

/-- Strict UTF-8 decoding of a byte list into code points (bytes.decode with
the utf-8 codec): rejects lone continuation bytes, overlong forms, surrogate
code points and values above 0x10FFFF; none models a UnicodeDecodeError.
Fuel-bounded so that recursion is structural; fuel at least the list length
decodes the whole list. -/
def utf8_decode_aux : Nat → List Nat → Option (List Nat)
  | _, [] => some []
  | 0, _ :: _ => none
  | fuel + 1, b :: bs =>
    if b < 0x80 then (utf8_decode_aux fuel bs).map (b :: ·)
    else if b < 0xC2 then none
    else if b < 0xE0 then
      match bs with
      | b1 :: rest =>
        if utf8_cont b1 then
          (utf8_decode_aux fuel rest).map (((b - 0xC0) * 64 + (b1 - 0x80)) :: ·)
        else none
      | _ => none
    else if b < 0xF0 then
      match bs with
      | b1 :: b2 :: rest =>
        if (if b = 0xE0 then 0xA0 else 0x80) ≤ b1 &&
            b1 < (if b = 0xED then 0xA0 else 0xC0) && utf8_cont b2 then
          (utf8_decode_aux fuel rest).map
            (((b - 0xE0) * 4096 + (b1 - 0x80) * 64 + (b2 - 0x80)) :: ·)
        else none
      | _ => none
    else if b < 0xF5 then
      match bs with
      | b1 :: b2 :: b3 :: rest =>
        if (if b = 0xF0 then 0x90 else 0x80) ≤ b1 &&
            b1 < (if b = 0xF4 then 0x90 else 0xC0) && utf8_cont b2 &&
            utf8_cont b3 then
          (utf8_decode_aux fuel rest).map
            (((b - 0xF0) * 262144 + (b1 - 0x80) * 4096 + (b2 - 0x80) * 64
              + (b3 - 0x80)) :: ·)
        else none
      | _ => none
    else none

/-- Strict UTF-8 decoding of a byte list. -/
def utf8_decode (bs : List Nat) : Option (List Nat) := utf8_decode_aux bs.length bs

/-- Latin-1 decoding (bytes.decode with the latin-1 codec): every byte maps to
the code point of the same value; total on byte lists. -/
def latin1_decode (bs : List Nat) : Option (List Nat) := some bs

/-- Decode one byte under Windows-1252: bytes outside 0x80..0x9F map to
themselves; inside that range the Windows-1252 table applies, with the five
unassigned bytes 0x81, 0x8D, 0x8F, 0x90, 0x9D raising a decode error. -/
def cp1252_byte : Nat → Option Nat
  | 0x80 => some 0x20AC
  | 0x82 => some 0x201A
  | 0x83 => some 0x0192
  | 0x84 => some 0x201E
  | 0x85 => some 0x2026
  | 0x86 => some 0x2020
  | 0x87 => some 0x2021
  | 0x88 => some 0x02C6
  | 0x89 => some 0x2030
  | 0x8A => some 0x0160
  | 0x8B => some 0x2039
  | 0x8C => some 0x0152
  | 0x8E => some 0x017D
  | 0x91 => some 0x2018
  | 0x92 => some 0x2019
  | 0x93 => some 0x201C
  | 0x94 => some 0x201D
  | 0x95 => some 0x2022
  | 0x96 => some 0x2013
  | 0x97 => some 0x2014
  | 0x98 => some 0x02DC
  | 0x99 => some 0x2122
  | 0x9A => some 0x0161
  | 0x9B => some 0x203A
  | 0x9C => some 0x0153
  | 0x9E => some 0x017E
  | 0x9F => some 0x0178
  | b => if 0x80 ≤ b ∧ b ≤ 0x9F then none else some b

/-- Map a per-byte decoder over a byte list, failing if any byte fails. -/
def map_decode (f : Nat → Option Nat) : List Nat → Option (List Nat)
  | [] => some []
  | b :: bs =>
    match f b with
    | none => none
    | some c => (map_decode f bs).map (c :: ·)

/-- Windows-1252 decoding (bytes.decode with the cp1252 codec). -/
def cp1252_decode (bs : List Nat) : Option (List Nat) := map_decode cp1252_byte bs

/-- ASCII decoding (bytes.decode with the ascii codec): bytes below 0x80 map
to themselves, any other byte raises a decode error. -/
def ascii_decode (bs : List Nat) : Option (List Nat) :=
  map_decode (fun b => if b < 0x80 then some b else none) bs

/-- The acceptance filter of the source's decode loop on one character:
32 <= ord(c) <= 126 or c in the four characters dot, underscore, hyphen,
slash (ipf_extractor_optimized.py line 138). -/
def printable_char (c : Nat) : Bool :=
  (32 ≤ c && c ≤ 126) || (c = 46 || c = 95 || c = 45 || c = 47)

/-- All characters pass the printability filter. -/
def printable_ok (s : List Nat) : Bool := s.all printable_char

/-- The ordered encoding list of the source: utf-8, latin-1, cp1252, ascii
(ipf_extractor_optimized.py line 135). -/
def encoding_list : List (List Nat → Option (List Nat)) :=
  [utf8_decode, latin1_decode, cp1252_decode, ascii_decode]

/-- The source's for-loop over encodings (lines 134-142): try each decoder in
order and accept the first whose result is truthy (non-empty) and passes the
printability filter; decode errors fall through to the next encoding. -/
def try_encodings : List (List Nat → Option (List Nat)) → List Nat → Option (List Nat)
  | [], _ => none
  | d :: ds, bs =>
    match d bs with
    | some s => if s ≠ [] ∧ printable_ok s then some s else try_encodings ds bs
    | none => try_encodings ds bs

/-- The source's filename text decoding (lines 133-151): the ordered encoding
loop, then the cp932 lossy fallback accepted when the result is truthy
(non-empty) and has length greater than 1.  The cp932 lossy decoder is the
Python codec cp932 with errors ignored, external to the repository, so it is
a parameter; the theorems quantify over it. -/
def decode_filename (cp932 : List Nat → List Nat) (decrypted : List Nat) :
    Option (List Nat) :=
  match try_encodings encoding_list decrypted with
  | some s => some s
  | none =>
    let d := cp932 decrypted
    if d ≠ [] ∧ d.length > 1 then some d else none

/-- Stated from the claim C4 wording, for the refinement comparison only: try
the encodings in the strict order utf-8, latin-1, cp1252, ascii, accepting
the first whose decode succeeds and yields only characters passing the
printability filter (no non-emptiness requirement), then fall back to the
cp932 lossy decode accepted only when non-empty with length greater than 1. -/
def decode_filename_claim (cp932 : List Nat → List Nat) (decrypted : List Nat) :
    Option (List Nat) :=
  match (encoding_list.filterMap (fun d =>
      match d decrypted with
      | some s => if printable_ok s then some s else none
      | none => none)).head? with
  | some s => some s
  | none =>
    let d := cp932 decrypted
    if d ≠ [] ∧ d.length > 1 then some d else none

/-- Little-endian digit list (fuel-bounded so that the kernel can evaluate
it); fuel at least n gives all digits of n. -/
def dec_digits_aux : Nat → Nat → List Nat
  | 0, _ => []
  | _ + 1, 0 => []
  | fuel + 1, n + 1 => ((n + 1) % 10 + 48) :: dec_digits_aux fuel ((n + 1) / 10)

/-- Decimal representation of a natural as ASCII digit codes (str(n)). -/
def nat_repr (n : Nat) : List Nat :=
  if n = 0 then [48] else (dec_digits_aux n n).reverse

/-- Value of a little-endian ASCII digit list, used to invert nat_repr. -/
def digits_val : List Nat → Nat
  | [] => 0
  | d :: ds => (d - 48) + 10 * digits_val ds

/-- Zero-padding to width four (the format 04d); wider numbers are kept. -/
def zero_pad4 (ds : List Nat) : List Nat :=
  List.replicate (4 - ds.length) 48 ++ ds

/-- The synthetic fallback name file_NNNN.bin with NNNN the zero-padded
entry index (ipf_extractor_optimized.py lines 154 and 168). -/
def synthetic_name (index : Nat) : List Nat :=
  [102, 105, 108, 101, 95] ++ zero_pad4 (nat_repr index) ++ [46, 98, 105, 110]

/-- Modelled from the spec: a character the sanitizer keeps, namely
alphanumerics, dot, underscore and hyphen (spec 4.4); part of the absent
module ipf_extractor (make_safe_filename). -/
def safe_char (c : Nat) : Bool :=
  (48 ≤ c && c ≤ 57) || (65 ≤ c && c ≤ 90) || (97 ≤ c && c ≤ 122) ||
    c = 46 || c = 95 || c = 45

/-- Modelled from the spec: collapse runs of underscores (spec 4.4). -/
def collapse_underscores : List Nat → List Nat
  | [] => []
  | [c] => [c]
  | c :: c' :: cs =>
    if c = 95 ∧ c' = 95 then collapse_underscores (c' :: cs)
    else c :: collapse_underscores (c' :: cs)

/-- Modelled from the spec: trim leading and trailing underscores and dots
(spec 4.4). -/
def trim_chars (s : List Nat) : List Nat :=
  ((s.dropWhile (fun c => c = 95 || c = 46)).reverse.dropWhile
    (fun c => c = 95 || c = 46)).reverse

/-- Modelled from the spec: make_safe_filename of the absent module
ipf_extractor, per the sanitizer policy of spec 4.4: replace every character
outside alnum, dot, underscore, hyphen by an underscore, collapse runs of
underscores, trim leading and trailing underscores and dots.  The fallback to
the synthetic name when the result is empty is applied at the call site,
where the entry index is in scope. -/
def make_safe_filename (name : List Nat) : List Nat :=
  trim_chars (collapse_underscores
    (name.map (fun c => if safe_char c then c else 95)))

/-- The fields of a zipfile.ZipInfo that the extractor reads: the local
header offset, the compression method and the compressed payload size. -/
structure PyZipInfo where
  header_offset : Nat
  compress_type : Nat
  compress_size : Nat
deriving DecidableEq, Repr

/-- The FileInfo namedtuple of ipf_extractor_optimized.py line 18. -/
structure FileInfo where
  zip_info : PyZipInfo
  decrypted_name : Option (List Nat)
  safe_name : List Nat
  index : Nat
deriving DecidableEq, Repr

/-- Lines 110-128 of _process_single_filename: read the two-byte filename
length at local_header_offset + 26, reject short reads, reject lengths of 0
or above 512, read the encrypted filename at local_header_offset + 30 and
reject short reads; none models the early return None. -/
def read_filename_ciphertext (archive : List Nat) (ho : Nat) : Option (List Nat) :=
  let name_len_bytes := fread archive (ho + 26) 2
  if name_len_bytes.length ≠ 2 then none
  else
    let name_len := le16 name_len_bytes
    if name_len = 0 ∨ name_len > 512 then none
    else
      let enc := fread archive (ho + 30) name_len
      if enc.length ≠ name_len then none else some enc

/-- ParallelFilenameProcessor._process_single_filename (lines 95-161): a
fresh cipher keyed from the password decrypts the filename ciphertext, the
encoding chain decodes it, and the safe name falls back to the synthetic
name when decoding failed.  The exception arm of the source (lines 163-170)
cannot arise in this pure model, whose file reads are total. -/
def process_single_filename (cp932 : List Nat → List Nat) (password : List Nat)
    (ipf : List Nat) (file_info : PyZipInfo) (index : Nat) : Option FileInfo :=
  match read_filename_ciphertext ipf file_info.header_offset with
  | none => none
  | some enc =>
    let decrypted_name := (decrypt_data (init_keys password) enc).1
    let decoded_name := decode_filename cp932 decrypted_name
    let safe_name :=
      match decoded_name with
      | some d =>
        let s := make_safe_filename d
        if s = [] then synthetic_name index else s
      | none => synthetic_name index
    some ⟨file_info, decoded_name, safe_name, index⟩

/-- The enumerate-submit-collect skeleton of process_all_filenames (lines
180-198) in submission order: entry i is processed with index i and None
results are dropped from the result list. -/
def phase_a_aux (cp932 : List Nat → List Nat) (password ipf : List Nat) :
    Nat → List PyZipInfo → List FileInfo
  | _, [] => []
  | i, info :: rest =>
    match process_single_filename cp932 password ipf info i with
    | some fi => fi :: phase_a_aux cp932 password ipf (i + 1) rest
    | none => phase_a_aux cp932 password ipf (i + 1) rest

/-- Phase-A results in submission order, indices starting at 0. -/
def phase_a_results (cp932 : List Nat → List Nat) (password ipf : List Nat)
    (file_infos : List PyZipInfo) : List FileInfo :=
  phase_a_aux cp932 password ipf 0 file_infos

/-- Stable sort by entry index, modelling results.sort at line 216. -/
def sort_by_index (l : List FileInfo) : List FileInfo :=
  l.mergeSort (fun a b => decide (a.index ≤ b.index))

/-- ParallelFilenameProcessor.process_all_filenames (lines 172-217): the
completion order of the thread pool is immaterial after the final sort (the
determinism theorem below quantifies over completion orders); the canonical
model processes in submission order and sorts by index. -/
def process_all_filenames (cp932 : List Nat → List Nat) (password ipf : List Nat)
    (file_infos : List PyZipInfo) : List FileInfo :=
  sort_by_index (phase_a_results cp932 password ipf file_infos)

/-- os.path.splitext restricted to leaf names: split at the rightmost dot,
except that a name whose characters before that dot are all dots (such as a
leading-dot name) does not split. -/
def splitext (s : List Nat) : List Nat × List Nat :=
  match s.reverse.findIdx? (fun c => c == 46) with
  | none => (s, [])
  | some r =>
    let i := s.length - 1 - r
    if (s.take i).all (fun c => c == 46) then (s, []) else (s.take i, s.drop i)

/-- The candidate name with collision counter c inserted before the
extension: name, underscore, str(c), ext (line 291). -/
def resolve_candidate (nm ext : List Nat) (c : Nat) : List Nat :=
  nm ++ 95 :: (nat_repr c ++ ext)

/-- The while-loop of lines 287-292, fuel-bounded: starting from the base
name and counter 1, step to the next suffixed candidate while the current
candidate is already used.  The theorems establish that the given fuel is
never exhausted, so the bound is not a behavioral restriction. -/
def resolve_loop (used : List (List Nat)) (nm ext : List Nat) :
    List Nat → Nat → Nat → List Nat
  | cur, _, 0 => cur
  | cur, counter, fuel + 1 =>
    if cur ∈ used then
      resolve_loop used nm ext (resolve_candidate nm ext counter) (counter + 1) fuel
    else cur

/-- Collision resolution for one entry (lines 285-292): try the base name,
then name_1, name_2 and so on, taking the first not yet used. -/
def resolve_name (used : List (List Nat)) (base : List Nat) : List Nat :=
  let pe := splitext base
  resolve_loop used pe.1 pe.2 base 1 (used.length + 1)

/-- Joining the output directory and a leaf name (os.path.join, line 295). -/
def path_join (dir name : List Nat) : List Nat := dir ++ 47 :: name

/-- One scheduled extraction: the FileInfo with its unique safe name
substituted, and the assigned output path (lines 294-299). -/
structure ExtractTask where
  file_info : FileInfo
  output_path : List Nat
deriving DecidableEq, Repr

/-- The task-preparation loop of extract_files_optimized (lines 280-299):
iterate the phase-A entries in order, resolve each safe name against the set
of names already assigned, record the assigned name in that set, and emit
the task with its output path. -/
def make_tasks_aux (output_dir : List Nat) :
    List (List Nat) → List FileInfo → List ExtractTask
  | _, [] => []
  | used, fi :: rest =>
    let safe := resolve_name used fi.safe_name
    ⟨{ fi with safe_name := safe }, path_join output_dir safe⟩
      :: make_tasks_aux output_dir (safe :: used) rest

/-- The extraction task list with collision-resolved unique names. -/
def make_extraction_tasks (output_dir : List Nat) (file_infos : List FileInfo) :
    List ExtractTask :=
  make_tasks_aux output_dir [] file_infos

/-- Offset of an entry's payload: local header, then the 30-byte fixed part,
then the filename and extra fields whose lengths sit at offsets 26 and 28 of
the local header (spec 3, LocalHeader). -/
def payload_offset (archive : List Nat) (zi : PyZipInfo) : Nat :=
  zi.header_offset + 30 + le16 (fread archive (zi.header_offset + 26) 2)
    + le16 (fread archive (zi.header_offset + 28) 2)

/-- Modelled from the spec: the per-entry decryption of spec 4.5 steps 1-3,
performed in the source by ipf_zip.open of the Python zipfile module (line
239), which is outside the repository: read compressed_size payload bytes at
the payload offset, pass the first 12 bytes through a fresh per-entry cipher
and discard the plaintext, then stream the remaining bytes through the same
cipher. -/
def entry_plaintext (password archive : List Nat) (zi : PyZipInfo) : List Nat :=
  let payload := fread archive (payload_offset archive zi) zi.compress_size
  let k0 := init_keys password
  let hdr := decrypt_data k0 (payload.take 12)
  let body := decrypt_data hdr.2 (payload.drop 12)
  body.1

/-- Modelled from the spec: spec 4.5 steps 4-5: stored entries yield the
plaintext unchanged, deflated entries feed it to a raw inflate decoder.  The
inflate decoder itself is external (zlib), so it is a parameter and the
theorems quantify over it. -/
def entry_member_bytes (inflate : List Nat → List Nat)
    (password archive : List Nat) (zi : PyZipInfo) : List Nat :=
  if zi.compress_type = 8 then inflate (entry_plaintext password archive zi)
  else entry_plaintext password archive zi

/-- The read buffer size of the streaming copy loop (line 242). -/
def buffer_size : Nat := 65536

/-- The chunks delivered by the member_file.read loop of lines 244-249,
fuel-bounded for kernel evaluation; fuel at least the stream length gives
every chunk. -/
def read_chunks_aux : Nat → List Nat → List (List Nat)
  | 0, _ => []
  | _ + 1, [] => []
  | fuel + 1, b :: rest =>
    ((b :: rest).take buffer_size) :: read_chunks_aux fuel ((b :: rest).drop buffer_size)

/-- The chunk sequence of a member stream. -/
def read_chunks (bs : List Nat) : List (List Nat) := read_chunks_aux bs.length bs

/-- The bytes _extract_single_file_optimized writes to the output path on the
success path (lines 239-249): the concatenation of the streamed chunks of
the member bytes. -/
def extract_written_bytes (inflate : List Nat → List Nat)
    (password archive : List Nat) (zi : PyZipInfo) : List Nat :=
  (read_chunks (entry_member_bytes inflate password archive zi)).flatten

/-- Outcome oracle for one phase-B task: the task succeeds, or raises before
the output file is opened, or raises after the given bytes were already
written to the output file. -/
inductive ExtractOutcome where
  | ok : ExtractOutcome
  | fail_before_write : ExtractOutcome
  | fail_during_write : List Nat → ExtractOutcome
deriving DecidableEq, Repr

/-- Lookup in the modelled output directory (first binding wins, later
bindings are older). -/
def fs_lookup (fs : List (List Nat × List Nat)) (p : List Nat) : Option (List Nat) :=
  match fs with
  | [] => none
  | e :: rest => if e.1 = p then some e.2 else fs_lookup rest p

/-- One run of _extract_single_file_optimized (lines 233-263) under an
outcome oracle: on success the member bytes land at the output path and the
task returns (True, safe_name, size); on an exception the task returns
(False, safe_name, 0), and whatever bytes were already written remain at the
output path, since the except arm performs no cleanup and the file was
opened directly at its final path. -/
def run_single_task (fs : List (List Nat × List Nat)) (t : ExtractTask)
    (member : List Nat) (oc : ExtractOutcome) :
    List (List Nat × List Nat) × (Bool × List Nat × Nat) :=
  match oc with
  | .ok => ((t.output_path, member) :: fs, (true, t.file_info.safe_name, member.length))
  | .fail_before_write => (fs, (false, t.file_info.safe_name, 0))
  | .fail_during_write w => ((t.output_path, w) :: fs, (false, t.file_info.safe_name, 0))

/-- The phase-B task runs in task order, threading the output directory
state; the result list is in task order (writes to distinct pre-assigned
paths commute, and the subsequent theorems depend on the state only through
lookups at those distinct paths). -/
def run_tasks (inflate : List Nat → List Nat) (password archive : List Nat)
    (outcomes : Nat → ExtractOutcome) :
    Nat → List ExtractTask → List (List Nat × List Nat) →
    List (List Nat × List Nat) × List (Bool × List Nat × Nat)
  | _, [], fs => (fs, [])
  | i, t :: rest, fs =>
    let member := entry_member_bytes inflate password archive t.file_info.zip_info
    let step := run_single_task fs t member (outcomes i)
    let restRun := run_tasks inflate password archive outcomes (i + 1) rest step.1
    (restRun.1, step.2 :: restRun.2)

/-- The success counter of the result-collection loop (lines 320-323). -/
def success_count (rs : List (Bool × List Nat × Nat)) : Nat :=
  (rs.filter (fun r => r.1)).length

/-- OptimizedParallelExtractor.extract_files_optimized (lines 265-343):
prepare collision-resolved tasks, run them, and return whether the success
count equals the number of scheduled entries (line 343). -/
def extract_files_optimized (inflate : List Nat → List Nat)
    (password archive : List Nat) (outcomes : Nat → ExtractOutcome)
    (output_dir : List Nat) (file_infos : List FileInfo) : Bool :=
  let tasks := make_extraction_tasks output_dir file_infos
  let run := run_tasks inflate password archive outcomes 0 tasks []
  decide (success_count run.2 = file_infos.length)

/-- process_ipf_file_optimized (lines 345-391): run phase A, run phase B,
bind its boolean to the local variable success (line 384), and return True
(line 387); the returned value does not consult success.  The exception arm
(line 389-391) cannot arise in this pure model. -/
def process_ipf_file_optimized (inflate cp932 : List Nat → List Nat)
    (password archive : List Nat) (outcomes : Nat → ExtractOutcome)
    (output_dir : List Nat) (file_infos : List PyZipInfo) : Bool :=
  let processed := process_all_filenames cp932 password archive file_infos
  let _success :=
    extract_files_optimized inflate password archive outcomes output_dir processed
  true

/-- The worker-count expression max_workers or min(8, cpu_count()) of
ParallelFilenameProcessor.__init__ (line 91): a falsy override, None or 0,
falls back to the default. -/
def filename_processor_max_workers (max_workers : Option Nat) (cpu : Nat) : Nat :=
  match max_workers with
  | none => min 8 cpu
  | some n => if n = 0 then min 8 cpu else n

/-- The identical worker-count expression of
OptimizedParallelExtractor.__init__ (line 225). -/
def extractor_max_workers (max_workers : Option Nat) (cpu : Nat) : Nat :=
  match max_workers with
  | none => min 8 cpu
  | some n => if n = 0 then min 8 cpu else n

/-- The observable phase-B output as (safe_name, file_bytes) pairs, one per
scheduled task, on the all-successes path.  The worker count parameter only
sizes the thread pool in the source and does not enter the data path. -/
def extraction_pairs (inflate : List Nat → List Nat)
    (password archive output_dir : List Nat) (_workers : Nat)
    (file_infos : List FileInfo) : List (List Nat × List Nat) :=
  (make_extraction_tasks output_dir file_infos).map
    (fun t => (t.file_info.safe_name,
      entry_member_bytes inflate password archive t.file_info.zip_info))

/-- The full pipeline's observable output for the determinism claim: phase A
in canonical order, then the phase-B pair list. -/
def run_extraction (inflate cp932 : List Nat → List Nat)
    (password archive output_dir : List Nat) (workers : Nat)
    (file_infos : List PyZipInfo) : List (List Nat × List Nat) :=
  extraction_pairs inflate password archive output_dir workers
    (process_all_filenames cp932 password archive file_infos)

theorem decrypt_data_length (k : ZipKeys) (bs : List Nat) :
    (decrypt_data k bs).1.length = bs.length := by
  induction bs generalizing k with
  | nil => rfl
  | cons c cs ih => simp [decrypt_data, ih]

theorem decrypt_data_append (k : ZipKeys) (xs ys : List Nat) :
    decrypt_data k (xs ++ ys) =
      ((decrypt_data k xs).1 ++ (decrypt_data (decrypt_data k xs).2 ys).1,
       (decrypt_data (decrypt_data k xs).2 ys).2) := by
  induction xs generalizing k with
  | nil => simp [decrypt_data]
  | cons c cs ih => simp [decrypt_data, ih]

theorem read_chunks_aux_flatten :
    ∀ fuel bs, bs.length ≤ fuel → (read_chunks_aux fuel bs).flatten = bs := by
  intro fuel
  induction fuel with
  | zero =>
    intro bs h
    have : bs = [] := List.eq_nil_of_length_eq_zero (Nat.le_zero.mp h)
    subst this; rfl
  | succ n ih =>
    intro bs h
    match bs with
    | [] => rfl
    | b :: rest =>
      have hlen : ((b :: rest).drop buffer_size).length ≤ n := by
        simp only [List.length_drop, List.length_cons] at *
        have : 1 ≤ buffer_size := by norm_num [buffer_size]
        omega
      simp only [read_chunks_aux, List.flatten_cons, ih _ hlen,
        List.take_append_drop]

theorem read_chunks_flatten (bs : List Nat) : (read_chunks bs).flatten = bs :=
  read_chunks_aux_flatten bs.length bs (Nat.le_refl _)

/-- The per-entry decryption of the spec's two-step procedure (decrypt and
discard 12 header bytes, then stream the rest through the same cipher) equals
decrypting the whole payload with a fresh cipher and dropping the first 12
plaintext bytes. -/
theorem entry_plaintext_eq (password archive : List Nat) (zi : PyZipInfo) :
    entry_plaintext password archive zi =
      ((decrypt_data (init_keys password)
        (fread archive (payload_offset archive zi) zi.compress_size)).1).drop 12 := by
  set payload := fread archive (payload_offset archive zi) zi.compress_size with hp
  show (decrypt_data (decrypt_data (init_keys password) (payload.take 12)).2
      (payload.drop 12)).1 =
    ((decrypt_data (init_keys password) payload).1).drop 12
  have hsplit := decrypt_data_append (init_keys password)
    (payload.take 12) (payload.drop 12)
  rw [List.take_append_drop] at hsplit
  rw [hsplit]
  have hlen : (decrypt_data (init_keys password) (payload.take 12)).1.length =
      (payload.take 12).length := decrypt_data_length _ _
  rcases le_or_lt 12 payload.length with hge | hlt
  · have h12 : (decrypt_data (init_keys password) (payload.take 12)).1.length = 12 := by
      rw [hlen]; simp [List.length_take, Nat.min_eq_left hge]
    exact (List.drop_left' h12).symm
  · have hdrop : payload.drop 12 = [] := List.drop_eq_nil_of_le (Nat.le_of_lt hlt)
    have h1 : (decrypt_data (init_keys password) (payload.take 12)).1.length ≤ 12 := by
      rw [hlen]; simp [List.length_take]
    rw [hdrop]
    simp only [decrypt_data, List.append_nil]
    exact (List.drop_eq_nil_of_le h1).symm

/-- Claim C3: for every entry with compression method stored or deflated, the
bytes written to the entry's output path equal the result of decrypting the
compressed_size payload bytes at the payload offset with a fresh per-entry
cipher, discarding the first 12 plaintext bytes, then applying raw inflate
when deflated and the identity when stored. -/
theorem claim_C3 (inflate : List Nat → List Nat) (password archive : List Nat)
    (zi : PyZipInfo) (hm : zi.compress_type = 0 ∨ zi.compress_type = 8) :
    extract_written_bytes inflate password archive zi =
      (if zi.compress_type = 8 then
        inflate (((decrypt_data (init_keys password)
          (fread archive (payload_offset archive zi) zi.compress_size)).1).drop 12)
      else ((decrypt_data (init_keys password)
          (fread archive (payload_offset archive zi) zi.compress_size)).1).drop 12) := by
  have _ := hm
  unfold extract_written_bytes
  rw [read_chunks_flatten]
  unfold entry_member_bytes
  rw [entry_plaintext_eq]

/-- Witness for claim C3 at a concrete stored entry. -/
theorem claim_C3_witness :
    ((PyZipInfo.mk 0 0 3).compress_type = 0 ∨ (PyZipInfo.mk 0 0 3).compress_type = 8) ∧
    extract_written_bytes id [] [1, 2, 3, 4, 5] (PyZipInfo.mk 0 0 3) =
      (if (PyZipInfo.mk 0 0 3).compress_type = 8 then
        id (((decrypt_data (init_keys [])
          (fread [1, 2, 3, 4, 5] (payload_offset [1, 2, 3, 4, 5] (PyZipInfo.mk 0 0 3))
            (PyZipInfo.mk 0 0 3).compress_size)).1).drop 12)
      else ((decrypt_data (init_keys [])
          (fread [1, 2, 3, 4, 5] (payload_offset [1, 2, 3, 4, 5] (PyZipInfo.mk 0 0 3))
            (PyZipInfo.mk 0 0 3).compress_size)).1).drop 12) :=
  ⟨Or.inl rfl, claim_C3 id [] [1, 2, 3, 4, 5] (PyZipInfo.mk 0 0 3) (Or.inl rfl)⟩

/-- Claim C10: a falsy max_workers override, 0 or None, silently becomes the
default min(8, cpu_count) in both ParallelFilenameProcessor and
OptimizedParallelExtractor, via the falsy-coalescing or. -/
theorem claim_C10 (cpu : Nat) :
    filename_processor_max_workers (some 0) cpu = min 8 cpu ∧
    filename_processor_max_workers none cpu = min 8 cpu ∧
    extractor_max_workers (some 0) cpu = min 8 cpu ∧
    extractor_max_workers none cpu = min 8 cpu :=
  ⟨rfl, rfl, rfl, rfl⟩

/-- Claim C1 is false of the code: process_ipf_file_optimized returns True
regardless of the extraction outcome, because the boolean bound at line 384
is never consulted and line 387 returns True.  First conjunct: the function
returns True for every input.  Second conjunct: a concrete run in which
extract_files_optimized itself reports failure (its single task fails), so
the claimed equivalence with all-entries-extracted does not hold. -/
theorem claim_C1 :
    (∀ (inflate cp932 : List Nat → List Nat) (password archive : List Nat)
      (outcomes : Nat → ExtractOutcome) (output_dir : List Nat)
      (file_infos : List PyZipInfo),
      process_ipf_file_optimized inflate cp932 password archive outcomes
        output_dir file_infos = true) ∧
    extract_files_optimized id get_ipf_password (List.replicate 31 0)
      (fun _ => ExtractOutcome.fail_before_write) []
      [⟨⟨0, 0, 13⟩, none, synthetic_name 0, 0⟩] = false := by
  constructor
  · intro inflate cp932 password archive outcomes output_dir file_infos
    rfl
  · decide

theorem process_single_filename_index (cp932 : List Nat → List Nat)
    (password ipf : List Nat) (info : PyZipInfo) (i : Nat) (fi : FileInfo)
    (h : process_single_filename cp932 password ipf info i = some fi) :
    fi.index = i := by
  unfold process_single_filename at h
  rcases hr : read_filename_ciphertext ipf info.header_offset with _ | enc
  · rw [hr] at h; exact absurd h (by simp)
  · rw [hr] at h
    simp only [Option.some.injEq] at h
    rw [← h]

theorem mem_phase_a_aux (cp932 : List Nat → List Nat) (password ipf : List Nat) :
    ∀ (l : List PyZipInfo) (i : Nat) (fi : FileInfo),
      fi ∈ phase_a_aux cp932 password ipf i l →
      ∃ j info, l[j]? = some info ∧ fi.index = i + j ∧
        process_single_filename cp932 password ipf info (i + j) = some fi := by
  intro l
  induction l with
  | nil => intro i fi h; exact absurd h (by simp [phase_a_aux])
  | cons info rest ih =>
    intro i fi h
    unfold phase_a_aux at h
    rcases hp : process_single_filename cp932 password ipf info i with _ | fi'
    · rw [hp] at h
      obtain ⟨j, info', hj, hidx, hps⟩ := ih (i + 1) fi h
      exact ⟨j + 1, info', by simpa using hj, by omega,
        by rw [show i + (j + 1) = i + 1 + j by omega]; exact hps⟩
    · rw [hp] at h
      rcases List.mem_cons.mp h with heq | hmem
      · subst heq
        refine ⟨0, info, by simp, ?_, by simpa using hp⟩
        simpa using process_single_filename_index cp932 password ipf info i _ hp
      · obtain ⟨j, info', hj, hidx, hps⟩ := ih (i + 1) fi hmem
        exact ⟨j + 1, info', by simpa using hj, by omega,
          by rw [show i + (j + 1) = i + 1 + j by omega]; exact hps⟩

theorem mem_sort_by_index (l : List FileInfo) (fi : FileInfo) :
    fi ∈ sort_by_index l ↔ fi ∈ l :=
  (List.mergeSort_perm l _).mem_iff

/-- Amended claim C2: an entry whose local-header filename length field reads
as 0 or greater than 512 is dropped, not degraded: _process_single_filename
returns None for it, and process_all_filenames filters None results out, so
no phase-A result carries that entry's index and nothing is scheduled for it
in phase B.  The synthetic-name fallback applies only on the exception arm. -/
theorem claim_C2_amended (cp932 : List Nat → List Nat) (password archive : List Nat)
    (info : PyZipInfo) (idx : Nat) (file_infos : List PyZipInfo)
    (hread : (fread archive (info.header_offset + 26) 2).length = 2)
    (hbad : le16 (fread archive (info.header_offset + 26) 2) = 0 ∨
      512 < le16 (fread archive (info.header_offset + 26) 2))
    (hat : file_infos[idx]? = some info) :
    process_single_filename cp932 password archive info idx = none ∧
    ∀ fi ∈ process_all_filenames cp932 password archive file_infos,
      fi.index ≠ idx := by
  have hnone : process_single_filename cp932 password archive info idx = none := by
    unfold process_single_filename read_filename_ciphertext
    simp only [hread]
    rw [if_neg (by omega)]
    rw [if_pos (by omega)]
  refine ⟨hnone, ?_⟩
  intro fi hmem hidx
  rw [process_all_filenames, mem_sort_by_index] at hmem
  obtain ⟨j, info', hj, hfiidx, hps⟩ :=
    mem_phase_a_aux cp932 password archive file_infos 0 fi hmem
  have hj0 : j = idx := by omega
  subst hj0
  rw [hat] at hj
  injection hj with hinfo
  subst hinfo
  rw [Nat.zero_add] at hps
  rw [hnone] at hps
  exact absurd hps (by simp)

/-- Counterexample to claim C2 as stated: a one-entry archive whose filename
length field is 0.  The claim asserts the entry still appears in the phase-A
result list under the synthetic name file_0000.bin; in fact the phase-A
result list is empty. -/
theorem claim_C2_counterexample :
    process_all_filenames (fun _ => []) get_ipf_password (List.replicate 28 0)
      [⟨0, 0, 0⟩] = [] := by
  have h : phase_a_results (fun _ => []) get_ipf_password (List.replicate 28 0)
      [⟨0, 0, 0⟩] = [] := by decide
  rw [process_all_filenames]
  show sort_by_index (phase_a_results _ _ _ _) = []
  rw [h]
  simp [sort_by_index]

/-- Witness for the amended claim C2 at the same concrete archive. -/
theorem claim_C2_amended_witness :
    process_single_filename (fun _ => []) get_ipf_password (List.replicate 28 0)
      ⟨0, 0, 0⟩ 0 = none :=
  (claim_C2_amended (fun _ => []) get_ipf_password (List.replicate 28 0)
    ⟨0, 0, 0⟩ 0 [⟨0, 0, 0⟩] (by decide) (Or.inl (by decide)) (by decide)).1

theorem read_filename_ciphertext_spec (archive : List Nat) (ho : Nat)
    (enc : List Nat) (h : read_filename_ciphertext archive ho = some enc) :
    0 < le16 (fread archive (ho + 26) 2) ∧
    le16 (fread archive (ho + 26) 2) ≤ 512 ∧
    enc = fread archive (ho + 30) (le16 (fread archive (ho + 26) 2)) := by
  simp only [read_filename_ciphertext] at h
  split at h
  · exact absurd h (by simp)
  · split at h
    · exact absurd h (by simp)
    · split at h
      · exact absurd h (by simp)
      · rename_i hbad _
        push_neg at hbad
        simp only [Option.some.injEq] at h
        exact ⟨Nat.pos_of_ne_zero hbad.1, hbad.2, h.symm⟩

/-- Claim C5: when an entry's filename is processed successfully, the
decrypted filename bytes are the byte-decrypt of a fresh cipher keyed from
the password applied to exactly name_len ciphertext bytes at
local_header_offset + 30, where name_len is the little-endian 16-bit value
at local_header_offset + 26, with no 12-byte encryption-header prefix
skipped; the stored decoded name is the text decoding of exactly those
decrypted bytes. -/
theorem claim_C5 (cp932 : List Nat → List Nat) (password archive : List Nat)
    (info : PyZipInfo) (idx : Nat) (fi : FileInfo)
    (h : process_single_filename cp932 password archive info idx = some fi) :
    0 < le16 (fread archive (info.header_offset + 26) 2) ∧
    le16 (fread archive (info.header_offset + 26) 2) ≤ 512 ∧
    read_filename_ciphertext archive info.header_offset =
      some (fread archive (info.header_offset + 30)
        (le16 (fread archive (info.header_offset + 26) 2))) ∧
    fi.decrypted_name = decode_filename cp932
      ((decrypt_data (init_keys password)
        (fread archive (info.header_offset + 30)
          (le16 (fread archive (info.header_offset + 26) 2)))).1) := by
  unfold process_single_filename at h
  rcases hr : read_filename_ciphertext archive info.header_offset with _ | enc
  · rw [hr] at h; exact absurd h (by simp)
  · rw [hr] at h
    obtain ⟨h1, h2, henc⟩ := read_filename_ciphertext_spec archive
      info.header_offset enc hr
    refine ⟨h1, h2, by exact congrArg some henc, ?_⟩
    simp only [Option.some.injEq] at h
    rw [← h, ← henc]

/-- Witness for claim C5 at a concrete one-entry archive whose local header
holds a filename of length 1. -/
theorem claim_C5_witness :
    0 < le16 (fread (List.replicate 26 0 ++ [1, 0, 0, 0, 65]) 26 2) ∧
    le16 (fread (List.replicate 26 0 ++ [1, 0, 0, 0, 65]) 26 2) ≤ 512 ∧
    read_filename_ciphertext (List.replicate 26 0 ++ [1, 0, 0, 0, 65]) 0 =
      some (fread (List.replicate 26 0 ++ [1, 0, 0, 0, 65]) 30
        (le16 (fread (List.replicate 26 0 ++ [1, 0, 0, 0, 65]) 26 2))) ∧
    ((process_single_filename (fun _ => []) get_ipf_password
        (List.replicate 26 0 ++ [1, 0, 0, 0, 65]) ⟨0, 0, 13⟩ 0).getD
          ⟨⟨0, 0, 0⟩, none, [], 0⟩).decrypted_name =
      decode_filename (fun _ => [])
        ((decrypt_data (init_keys get_ipf_password)
          (fread (List.replicate 26 0 ++ [1, 0, 0, 0, 65]) 30
            (le16 (fread (List.replicate 26 0 ++ [1, 0, 0, 0, 65]) 26 2)))).1) :=
  claim_C5 (fun _ => []) get_ipf_password
    (List.replicate 26 0 ++ [1, 0, 0, 0, 65]) ⟨0, 0, 13⟩ 0
    ((process_single_filename (fun _ => []) get_ipf_password
      (List.replicate 26 0 ++ [1, 0, 0, 0, 65]) ⟨0, 0, 13⟩ 0).getD
        ⟨⟨0, 0, 0⟩, none, [], 0⟩) (by decide)

theorem utf8_decode_aux_ne_nil (fuel b : Nat) (bs : List Nat) (s : List Nat)
    (h : utf8_decode_aux fuel (b :: bs) = some s) : s ≠ [] := by
  intro hnil
  subst hnil
  match fuel with
  | 0 => exact Option.noConfusion h
  | fuel + 1 =>
    rw [utf8_decode_aux.eq_def] at h
    dsimp only at h
    repeat'
      first
      | exact Option.noConfusion h
      | (obtain ⟨a, -, hcons⟩ := Option.map_eq_some'.mp h;
         exact absurd hcons (List.cons_ne_nil _ _))
      | split at h

theorem utf8_decode_ne_nil (b : Nat) (bs : List Nat) (s : List Nat)
    (h : utf8_decode (b :: bs) = some s) : s ≠ [] :=
  utf8_decode_aux_ne_nil _ b bs s h

theorem map_decode_ne_nil (f : Nat → Option Nat) (b : Nat) (bs : List Nat)
    (s : List Nat) (h : map_decode f (b :: bs) = some s) : s ≠ [] := by
  intro hnil
  subst hnil
  unfold map_decode at h
  split at h
  · exact absurd h (by simp)
  · simp_all [Option.map_eq_some']

theorem try_encodings_eq_first_printable (bs : List Nat) :
    ∀ ds : List (List Nat → Option (List Nat)),
      (∀ d ∈ ds, ∀ s, d bs = some s → s ≠ []) →
      try_encodings ds bs =
        (ds.filterMap (fun d =>
          match d bs with
          | some s => if printable_ok s then some s else none
          | none => none)).head? := by
  intro ds
  induction ds with
  | nil => intro _; rfl
  | cons d ds ih =>
    intro hne
    simp only [try_encodings, List.filterMap_cons]
    rcases hd : d bs with _ | s
    · dsimp only
      exact ih fun d' hd' => hne d' (List.mem_cons_of_mem _ hd')
    · dsimp only
      have hs : s ≠ [] := hne d (List.mem_cons_self _ _) s hd
      by_cases hp : printable_ok s = true
      · rw [if_pos (And.intro hs hp), if_pos hp]
        simp
      · rw [if_neg (fun hc => hp hc.2), if_neg hp]
        dsimp only
        exact ih fun d' hd' => hne d' (List.mem_cons_of_mem _ hd')

/-- Claim C4: text decoding tries the encodings in the strict order utf-8,
latin-1, cp1252, ascii, accepting the first whose decode succeeds under the
printability filter, then falls back to the cp932 lossy decode accepted only
when non-empty of length greater than 1; and if utf-8 succeeds under the
filter, the result is the utf-8 decode, with no later encoding consulted
(the conclusion is independent of the cp932 parameter).  The hypothesis that
the byte sequence is non-empty reflects the program, which never decodes an
empty filename: lengths of 0 are rejected earlier. -/
theorem claim_C4 (cp932 : List Nat → List Nat) (bs : List Nat) (hbs : bs ≠ []) :
    decode_filename cp932 bs = decode_filename_claim cp932 bs ∧
    ∀ s, utf8_decode bs = some s → printable_ok s = true →
      decode_filename cp932 bs = some s := by
  obtain ⟨b, bs', rfl⟩ := List.exists_cons_of_ne_nil hbs
  have hd : ∀ d ∈ encoding_list, ∀ s, d (b :: bs') = some s → s ≠ [] := by
    intro d hdmem s hds
    simp only [encoding_list, List.mem_cons, List.not_mem_nil, or_false] at hdmem
    rcases hdmem with rfl | rfl | rfl | rfl
    · exact utf8_decode_ne_nil b bs' s hds
    · simp only [latin1_decode, Option.some.injEq] at hds
      simp [← hds]
    · exact map_decode_ne_nil cp1252_byte b bs' s hds
    · exact map_decode_ne_nil _ b bs' s hds
  constructor
  · unfold decode_filename decode_filename_claim
    rw [try_encodings_eq_first_printable _ _ hd]
  · intro s hu hp
    have hs : s ≠ [] := utf8_decode_ne_nil b bs' s hu
    unfold decode_filename
    simp only [encoding_list, try_encodings]
    rw [hu]
    simp only [if_pos (And.intro hs hp)]

/-- Witness for claim C4 at the one-byte sequence holding the letter a. -/
theorem claim_C4_witness :
    decode_filename (fun _ => []) [97] = decode_filename_claim (fun _ => []) [97] ∧
    decode_filename (fun _ => []) [97] = some [97] :=
  ⟨(claim_C4 (fun _ => []) [97] (by decide)).1,
   (claim_C4 (fun _ => []) [97] (by decide)).2 [97] (by decide) (by decide)⟩

theorem dec_digits_aux_val : ∀ fuel n, n ≤ fuel →
    digits_val (dec_digits_aux fuel n) = n := by
  intro fuel
  induction fuel with
  | zero =>
    intro n h
    have : n = 0 := Nat.le_zero.mp h
    subst this; rfl
  | succ f ih =>
    intro n h
    match n with
    | 0 => rfl
    | n + 1 =>
      have hdiv : (n + 1) / 10 ≤ f := by
        have := Nat.div_lt_self (Nat.succ_pos n) (by norm_num : (1 : Nat) < 10)
        omega
      simp only [dec_digits_aux, digits_val, ih _ hdiv]
      omega

theorem nat_repr_ne_nil (n : Nat) : nat_repr n ≠ [] := by
  unfold nat_repr
  split
  · simp
  · rename_i hn
    intro h
    have hrev : dec_digits_aux n n = [] := by
      have := congrArg List.reverse h
      simpa using this
    have hv := dec_digits_aux_val n n (Nat.le_refl n)
    rw [hrev] at hv
    simp [digits_val] at hv
    exact hn hv.symm

theorem nat_repr_inj (a b : Nat) (h : nat_repr a = nat_repr b) : a = b := by
  by_cases ha : a = 0 <;> by_cases hb : b = 0
  · omega
  · exfalso
    unfold nat_repr at h
    rw [if_pos ha, if_neg hb] at h
    have hrev : dec_digits_aux b b = [48] := by
      have := congrArg List.reverse h
      simpa using this.symm
    have hv := dec_digits_aux_val b b (Nat.le_refl b)
    rw [hrev] at hv
    simp [digits_val] at hv
    exact hb hv.symm
  · exfalso
    unfold nat_repr at h
    rw [if_neg ha, if_pos hb] at h
    have hrev : dec_digits_aux a a = [48] := by
      have := congrArg List.reverse h
      simpa using this
    have hv := dec_digits_aux_val a a (Nat.le_refl a)
    rw [hrev] at hv
    simp [digits_val] at hv
    exact ha hv.symm
  · unfold nat_repr at h
    rw [if_neg ha, if_neg hb] at h
    have hrev : dec_digits_aux a a = dec_digits_aux b b := by
      have := congrArg List.reverse h
      simpa using this
    have hva := dec_digits_aux_val a a (Nat.le_refl a)
    have hvb := dec_digits_aux_val b b (Nat.le_refl b)
    rw [hrev] at hva
    omega

theorem splitext_append (s : List Nat) : (splitext s).1 ++ (splitext s).2 = s := by
  unfold splitext
  rcases h : s.reverse.findIdx? (fun c => c == 46) with _ | r
  · simp
  · dsimp only
    split
    · simp
    · exact List.take_append_drop _ s

theorem resolve_candidate_inj (nm ext : List Nat) (c₁ c₂ : Nat)
    (h : resolve_candidate nm ext c₁ = resolve_candidate nm ext c₂) : c₁ = c₂ := by
  unfold resolve_candidate at h
  have h1 := List.append_cancel_left h
  injection h1 with _ h2
  exact nat_repr_inj _ _ (List.append_cancel_right h2)

theorem base_ne_resolve_candidate (base : List Nat) (c : Nat) :
    base ≠ resolve_candidate (splitext base).1 (splitext base).2 c := by
  intro h
  have hb := congrArg List.length (splitext_append base)
  have hc := congrArg List.length h
  simp only [resolve_candidate, List.length_append, List.length_cons] at hb hc
  have hrl : 0 < (nat_repr c).length :=
    List.length_pos.mpr (nat_repr_ne_nil c)
  omega

theorem resolve_loop_first (used : List (List Nat)) (nm ext : List Nat) :
    ∀ fuel cur counter,
      (∃ x ∈ cur :: (List.range' counter fuel).map (resolve_candidate nm ext),
        x ∉ used) →
      (resolve_loop used nm ext cur counter fuel = cur ∧ cur ∉ used) ∨
      (cur ∈ used ∧ ∃ c, counter ≤ c ∧
        resolve_loop used nm ext cur counter fuel = resolve_candidate nm ext c ∧
        resolve_candidate nm ext c ∉ used ∧
        ∀ c', counter ≤ c' → c' < c → resolve_candidate nm ext c' ∈ used) := by
  intro fuel
  induction fuel with
  | zero =>
    intro cur counter hex
    obtain ⟨x, hx, hnx⟩ := hex
    simp only [List.range', List.map_nil, List.mem_singleton] at hx
    subst hx
    exact Or.inl ⟨rfl, hnx⟩
  | succ f ih =>
    intro cur counter hex
    by_cases hc : cur ∈ used
    · right
      refine ⟨hc, ?_⟩
      have hrec : resolve_loop used nm ext cur counter (f + 1) =
          resolve_loop used nm ext (resolve_candidate nm ext counter)
            (counter + 1) f := by
        simp [resolve_loop, hc]
      have hex' : ∃ x ∈ resolve_candidate nm ext counter ::
          (List.range' (counter + 1) f).map (resolve_candidate nm ext),
          x ∉ used := by
        obtain ⟨x, hx, hnx⟩ := hex
        rcases List.mem_cons.mp hx with rfl | hx'
        · exact absurd hc hnx
        · rw [List.range'_succ, List.map_cons] at hx'
          exact ⟨x, hx', hnx⟩
      rcases ih (resolve_candidate nm ext counter) (counter + 1) hex' with
        ⟨heq, hnot⟩ | ⟨hcin, c, hc1, heq, hnot, hall⟩
      · exact ⟨counter, Nat.le_refl _, by rw [hrec, heq], hnot,
          fun c' h1 h2 => absurd h1 (by omega)⟩
      · refine ⟨c, by omega, by rw [hrec, heq], hnot, ?_⟩
        intro c' h1 h2
        rcases Nat.eq_or_lt_of_le h1 with heqc | hlt
        · rw [← heqc]; exact hcin
        · exact hall c' (by omega) h2
    · exact Or.inl ⟨by simp [resolve_loop, hc], hc⟩

theorem exists_free_candidate (used : List (List Nat)) (base : List Nat) :
    ∃ x ∈ base :: (List.range' 1 (used.length + 1)).map
      (resolve_candidate (splitext base).1 (splitext base).2), x ∉ used := by
  by_contra hall
  push_neg at hall
  have hnodup : (base :: (List.range' 1 (used.length + 1)).map
      (resolve_candidate (splitext base).1 (splitext base).2)).Nodup := by
    refine List.nodup_cons.mpr ⟨?_, ?_⟩
    · intro hmem
      obtain ⟨c, -, hc⟩ := List.mem_map.mp hmem
      exact base_ne_resolve_candidate base c hc.symm
    · exact (List.nodup_range' 1 (used.length + 1)).map
        (fun c₁ c₂ h => resolve_candidate_inj _ _ _ _ h)
  have hsub : (base :: (List.range' 1 (used.length + 1)).map
      (resolve_candidate (splitext base).1 (splitext base).2)) ⊆ used :=
    fun x hx => hall x hx
  have hle := (List.subperm_of_subset hnodup hsub).length_le
  simp only [List.length_cons, List.length_map, List.length_range'] at hle
  omega

theorem resolve_name_not_mem (used : List (List Nat)) (base : List Nat) :
    resolve_name used base ∉ used := by
  show resolve_loop used (splitext base).1 (splitext base).2 base 1
    (used.length + 1) ∉ used
  rcases resolve_loop_first used (splitext base).1 (splitext base).2
      (used.length + 1) base 1 (exists_free_candidate used base) with
    ⟨heq, hnot⟩ | ⟨-, c, -, heq, hnot, -⟩
  · rw [heq]; exact hnot
  · rw [heq]; exact hnot

theorem resolve_name_first (used : List (List Nat)) (base : List Nat) :
    (base ∉ used → resolve_name used base = base) ∧
    (base ∈ used → ∃ c, 1 ≤ c ∧
      resolve_name used base =
        resolve_candidate (splitext base).1 (splitext base).2 c ∧
      resolve_candidate (splitext base).1 (splitext base).2 c ∉ used ∧
      ∀ c', 1 ≤ c' → c' < c →
        resolve_candidate (splitext base).1 (splitext base).2 c' ∈ used) := by
  have h := resolve_loop_first used (splitext base).1 (splitext base).2
    (used.length + 1) base 1 (exists_free_candidate used base)
  constructor
  · intro hout
    rcases h with ⟨heq, -⟩ | ⟨hin, -⟩
    · exact heq
    · exact absurd hin hout
  · intro hin
    rcases h with ⟨-, hnot⟩ | ⟨-, c, hc1, heq, hnot, hall⟩
    · exact absurd hin hnot
    · exact ⟨c, hc1, heq, hnot, hall⟩

theorem make_tasks_aux_not_mem (output_dir : List Nat) :
    ∀ (l : List FileInfo) (used : List (List Nat)),
      ∀ t ∈ make_tasks_aux output_dir used l, t.file_info.safe_name ∉ used := by
  intro l
  induction l with
  | nil => intro used t ht; exact absurd ht (by simp [make_tasks_aux])
  | cons fi rest ih =>
    intro used t ht
    rcases List.mem_cons.mp ht with rfl | hmem
    · exact resolve_name_not_mem used fi.safe_name
    · intro hin
      exact (ih (resolve_name used fi.safe_name :: used) t hmem)
        (List.mem_cons_of_mem _ hin)

theorem make_tasks_aux_path (output_dir : List Nat) :
    ∀ (l : List FileInfo) (used : List (List Nat)),
      ∀ t ∈ make_tasks_aux output_dir used l,
        t.output_path = path_join output_dir t.file_info.safe_name := by
  intro l
  induction l with
  | nil => intro used t ht; exact absurd ht (by simp [make_tasks_aux])
  | cons fi rest ih =>
    intro used t ht
    rcases List.mem_cons.mp ht with rfl | hmem
    · rfl
    · exact ih _ t hmem

theorem make_tasks_aux_pairwise (output_dir : List Nat) :
    ∀ (l : List FileInfo) (used : List (List Nat)),
      (make_tasks_aux output_dir used l).Pairwise
        (fun a b => a.file_info.safe_name ≠ b.file_info.safe_name) := by
  intro l
  induction l with
  | nil => intro used; simp [make_tasks_aux]
  | cons fi rest ih =>
    intro used
    refine List.pairwise_cons.mpr ⟨?_, ih _⟩
    intro t ht heq
    have := make_tasks_aux_not_mem output_dir rest
      (resolve_name used fi.safe_name :: used) t ht
    exact this (by rw [← heq]; exact List.mem_cons_self _ _)

/-- Claim C6: output-path collision resolution is deterministic (the
resolution is the pure function make_extraction_tasks of the index-ordered
entry list) and yields unique names and paths; each entry receives the base
name when unused, otherwise the first suffixed candidate name_c + ext with
the least unused counter c starting at 1. -/
theorem claim_C6 (output_dir : List Nat) (file_infos : List FileInfo) :
    (make_extraction_tasks output_dir file_infos).Pairwise
      (fun a b => a.output_path ≠ b.output_path) ∧
    (make_extraction_tasks output_dir file_infos).Pairwise
      (fun a b => a.file_info.safe_name ≠ b.file_info.safe_name) ∧
    ∀ used base, (base ∉ used → resolve_name used base = base) ∧
      (base ∈ used → ∃ c, 1 ≤ c ∧
        resolve_name used base =
          resolve_candidate (splitext base).1 (splitext base).2 c ∧
        resolve_candidate (splitext base).1 (splitext base).2 c ∉ used ∧
        ∀ c', 1 ≤ c' → c' < c →
          resolve_candidate (splitext base).1 (splitext base).2 c' ∈ used) := by
  have hnames := make_tasks_aux_pairwise output_dir file_infos []
  refine ⟨?_, hnames, fun used base => resolve_name_first used base⟩
  refine hnames.imp_of_mem ?_
  intro a b ha hb hne hpath
  apply hne
  have hpa := make_tasks_aux_path output_dir file_infos [] a ha
  have hpb := make_tasks_aux_path output_dir file_infos [] b hb
  rw [hpa, hpb] at hpath
  have := List.append_cancel_left hpath
  injection this

/-- Witness for claim C6: two entries both named x.d collide; the paths are
pairwise distinct, and a base name not yet used resolves to itself. -/
theorem claim_C6_witness :
    (make_extraction_tasks [111]
      [⟨⟨0, 0, 0⟩, none, [120, 46, 100], 0⟩,
       ⟨⟨1, 0, 0⟩, none, [120, 46, 100], 1⟩]).Pairwise
      (fun a b => a.output_path ≠ b.output_path) ∧
    resolve_name [] [120, 46, 100] = [120, 46, 100] :=
  ⟨(claim_C6 [111]
      [⟨⟨0, 0, 0⟩, none, [120, 46, 100], 0⟩,
       ⟨⟨1, 0, 0⟩, none, [120, 46, 100], 1⟩]).1,
   ((claim_C6 [] []).2.2 [] [120, 46, 100]).1 (by simp)⟩

theorem phase_a_aux_pairwise (cp932 : List Nat → List Nat) (password ipf : List Nat) :
    ∀ (l : List PyZipInfo) (i : Nat),
      (phase_a_aux cp932 password ipf i l).Pairwise
        (fun a b => a.index < b.index) := by
  intro l
  induction l with
  | nil => intro i; simp [phase_a_aux]
  | cons info rest ih =>
    intro i
    unfold phase_a_aux
    rcases hp : process_single_filename cp932 password ipf info i with _ | fi
    · exact ih (i + 1)
    · refine List.pairwise_cons.mpr ⟨?_, ih (i + 1)⟩
      intro b hb
      have hidx := process_single_filename_index cp932 password ipf info i fi hp
      obtain ⟨j, info', -, hbi, -⟩ :=
        mem_phase_a_aux cp932 password ipf rest (i + 1) b hb
      omega

theorem sort_by_index_sorted (r : List FileInfo) :
    (sort_by_index r).Pairwise (fun a b => a.index ≤ b.index) := by
  have h := @List.sorted_mergeSort FileInfo
    (fun a b : FileInfo => decide (a.index ≤ b.index))
    (fun a b c h1 h2 => by
      simp only [decide_eq_true_eq] at *
      omega)
    (fun a b => by
      simp only [Bool.or_eq_true, decide_eq_true_eq]
      omega) r
  exact h.imp (fun hab => by simpa using hab)

theorem sort_by_index_eq_of_perm (r l : List FileInfo)
    (hperm : r.Perm l) (hnd : l.Pairwise (fun a b => a.index ≠ b.index)) :
    sort_by_index r = sort_by_index l := by
  have hsymm : Symmetric (fun a b : FileInfo => a.index ≠ b.index) :=
    fun a b h => h.symm
  have hp₁ : (sort_by_index r).Perm l :=
    (List.mergeSort_perm r _).trans hperm
  have hp₂ : (sort_by_index l).Perm l := List.mergeSort_perm l _
  have hne₁ : (sort_by_index r).Pairwise (fun a b => a.index ≠ b.index) :=
    (hp₁.pairwise_iff fun h => Ne.symm h).mpr hnd
  have hne₂ : (sort_by_index l).Pairwise (fun a b => a.index ≠ b.index) :=
    (hp₂.pairwise_iff fun h => Ne.symm h).mpr hnd
  have hlt₁ : (sort_by_index r).Pairwise (fun a b => a.index < b.index) :=
    ((sort_by_index_sorted r).and hne₁).imp
      (fun hab => Nat.lt_of_le_of_ne hab.1 hab.2)
  have hlt₂ : (sort_by_index l).Pairwise (fun a b => a.index < b.index) :=
    ((sort_by_index_sorted l).and hne₂).imp
      (fun hab => Nat.lt_of_le_of_ne hab.1 hab.2)
  haveI : IsAntisymm FileInfo (fun a b => a.index < b.index) :=
    ⟨fun a b h1 h2 => absurd h2 (by omega)⟩
  exact List.eq_of_perm_of_sorted (hp₁.trans hp₂.symm) hlt₁ hlt₂

/-- Claim C7: for any archive and worker counts above zero, extraction yields
identical sets of (safe_name, file_bytes) pairs; the sorted phase-A list,
and with it the name-to-path assignment, is independent of the phase-A
completion order, and the pair set is independent of the worker count and
of the phase-B completion order (both quantified as permutations). -/
theorem claim_C7 (inflate cp932 : List Nat → List Nat)
    (password archive output_dir : List Nat) (file_infos : List PyZipInfo)
    (w₁ w₂ : Nat) (hw₁ : 1 ≤ w₁) (hw₂ : 1 ≤ w₂)
    (r₁ r₂ : List FileInfo)
    (hr₁ : r₁.Perm (phase_a_results cp932 password archive file_infos))
    (hr₂ : r₂.Perm (phase_a_results cp932 password archive file_infos))
    (p₁ p₂ : List (List Nat × List Nat))
    (hp₁ : p₁.Perm (extraction_pairs inflate password archive output_dir w₁
      (sort_by_index r₁)))
    (hp₂ : p₂.Perm (extraction_pairs inflate password archive output_dir w₂
      (sort_by_index r₂))) :
    sort_by_index r₁ = sort_by_index r₂ ∧ ∀ x, x ∈ p₁ ↔ x ∈ p₂ := by
  have _ := hw₁
  have _ := hw₂
  have hnd : (phase_a_results cp932 password archive file_infos).Pairwise
      (fun a b => a.index ≠ b.index) :=
    (phase_a_aux_pairwise cp932 password archive file_infos 0).imp
      (fun h => by omega)
  have hsort : sort_by_index r₁ = sort_by_index r₂ :=
    (sort_by_index_eq_of_perm r₁ _ hr₁ hnd).trans
      (sort_by_index_eq_of_perm r₂ _ hr₂ hnd).symm
  refine ⟨hsort, ?_⟩
  intro x
  have hpairs : extraction_pairs inflate password archive output_dir w₁
      (sort_by_index r₁) =
      extraction_pairs inflate password archive output_dir w₂
        (sort_by_index r₂) := by
    rw [hsort]; rfl
  rw [hp₁.mem_iff, hp₂.mem_iff, hpairs]

/-- Witness for claim C7 on the empty archive with worker counts 1 and 2. -/
theorem claim_C7_witness :
    sort_by_index [] = sort_by_index [] ∧
    (([], []) ∈ extraction_pairs id [] [] [] 1 (sort_by_index []) ↔
      ([], []) ∈ extraction_pairs id [] [] [] 2 (sort_by_index [])) :=
  ⟨(claim_C7 id (fun _ => []) [] [] [] [] 1 2 (by decide) (by decide)
      [] [] (List.Perm.refl _) (List.Perm.refl _)
      (extraction_pairs id [] [] [] 1 (sort_by_index []))
      (extraction_pairs id [] [] [] 2 (sort_by_index []))
      (List.Perm.refl _) (List.Perm.refl _)).1,
   (claim_C7 id (fun _ => []) [] [] [] [] 1 2 (by decide) (by decide)
      [] [] (List.Perm.refl _) (List.Perm.refl _)
      (extraction_pairs id [] [] [] 1 (sort_by_index []))
      (extraction_pairs id [] [] [] 2 (sort_by_index []))
      (List.Perm.refl _) (List.Perm.refl _)).2 ([], [])⟩

/-- The per-task result, which is independent of the directory state. -/
def expected_results (inflate : List Nat → List Nat) (password archive : List Nat)
    (outcomes : Nat → ExtractOutcome) :
    Nat → List ExtractTask → List (Bool × List Nat × Nat)
  | _, [] => []
  | n, t :: rest =>
    (run_single_task [] t
      (entry_member_bytes inflate password archive t.file_info.zip_info)
      (outcomes n)).2
      :: expected_results inflate password archive outcomes (n + 1) rest

theorem run_single_task_snd_const (fs : List (List Nat × List Nat))
    (t : ExtractTask) (member : List Nat) (oc : ExtractOutcome) :
    (run_single_task fs t member oc).2 = (run_single_task [] t member oc).2 := by
  cases oc <;> rfl

theorem run_tasks_snd (inflate : List Nat → List Nat) (password archive : List Nat)
    (outcomes : Nat → ExtractOutcome) :
    ∀ (tasks : List ExtractTask) (n : Nat) (fs : List (List Nat × List Nat)),
      (run_tasks inflate password archive outcomes n tasks fs).2 =
        expected_results inflate password archive outcomes n tasks := by
  intro tasks
  induction tasks with
  | nil => intro n fs; rfl
  | cons t rest ih =>
    intro n fs
    simp only [run_tasks, expected_results, ih, run_single_task_snd_const]

theorem expected_results_length (inflate : List Nat → List Nat)
    (password archive : List Nat) (outcomes : Nat → ExtractOutcome) :
    ∀ (tasks : List ExtractTask) (n : Nat),
      (expected_results inflate password archive outcomes n tasks).length =
        tasks.length := by
  intro tasks
  induction tasks with
  | nil => intro n; rfl
  | cons t rest ih => intro n; simp [expected_results, ih]

theorem expected_results_get (inflate : List Nat → List Nat)
    (password archive : List Nat) (outcomes : Nat → ExtractOutcome) :
    ∀ (tasks : List ExtractTask) (n i : Nat) (t : ExtractTask),
      tasks[i]? = some t →
      (expected_results inflate password archive outcomes n tasks)[i]? =
        some ((run_single_task [] t
          (entry_member_bytes inflate password archive t.file_info.zip_info)
          (outcomes (n + i))).2) := by
  intro tasks
  induction tasks with
  | nil => intro n i t ht; exact absurd ht (by simp)
  | cons u rest ih =>
    intro n i t ht
    match i with
    | 0 =>
      simp only [List.getElem?_cons_zero, Option.some.injEq] at ht
      subst ht
      simp [expected_results]
    | i + 1 =>
      simp only [List.getElem?_cons_succ] at ht
      have := ih (n + 1) i t ht
      simpa [expected_results, Nat.add_assoc, Nat.add_comm 1 i] using this

theorem success_count_expected (inflate : List Nat → List Nat)
    (password archive : List Nat) (outcomes : Nat → ExtractOutcome) :
    ∀ (tasks : List ExtractTask) (n : Nat),
      success_count (expected_results inflate password archive outcomes n tasks) =
        ((List.range' n tasks.length).filter
          (fun j => decide (outcomes j = ExtractOutcome.ok))).length := by
  intro tasks
  induction tasks with
  | nil => intro n; rfl
  | cons t rest ih =>
    intro n
    simp only [expected_results, success_count, List.length_cons,
      List.range'_succ, List.filter_cons]
    rcases hoc : outcomes n with _ | _ | w <;>
      simp only [hoc, run_single_task] <;>
      simp [success_count] at ih ⊢ <;>
      rw [ih]

theorem run_tasks_fs_untouched (inflate : List Nat → List Nat)
    (password archive : List Nat) (outcomes : Nat → ExtractOutcome) :
    ∀ (tasks : List ExtractTask) (n : Nat) (fs : List (List Nat × List Nat))
      (p : List Nat), p ∉ tasks.map (fun t => t.output_path) →
      fs_lookup (run_tasks inflate password archive outcomes n tasks fs).1 p =
        fs_lookup fs p := by
  intro tasks
  induction tasks with
  | nil => intro n fs p _; rfl
  | cons t rest ih =>
    intro n fs p hp
    simp only [List.map_cons, List.mem_cons, not_or] at hp
    obtain ⟨hph, hpt⟩ := hp
    simp only [run_tasks]
    rw [ih (n + 1) _ p (by simpa using hpt)]
    rcases hoc : outcomes n with _ | _ | w <;>
      simp [run_single_task, fs_lookup, Ne.symm hph]

theorem run_tasks_fs_at (inflate : List Nat → List Nat)
    (password archive : List Nat) (outcomes : Nat → ExtractOutcome) :
    ∀ (tasks : List ExtractTask) (n : Nat) (fs : List (List Nat × List Nat))
      (j : Nat) (u : ExtractTask),
      tasks.Pairwise (fun a b => a.output_path ≠ b.output_path) →
      tasks[j]? = some u →
      (outcomes (n + j) = ExtractOutcome.ok →
        fs_lookup (run_tasks inflate password archive outcomes n tasks fs).1
          u.output_path =
          some (entry_member_bytes inflate password archive u.file_info.zip_info)) ∧
      (∀ w, outcomes (n + j) = ExtractOutcome.fail_during_write w →
        fs_lookup (run_tasks inflate password archive outcomes n tasks fs).1
          u.output_path = some w) := by
  intro tasks
  induction tasks with
  | nil => intro n fs j u _ hj; exact absurd hj (by simp)
  | cons t rest ih =>
    intro n fs j u hpw hj
    have hhead := List.pairwise_cons.mp hpw
    match j with
    | 0 =>
      simp only [List.getElem?_cons_zero, Option.some.injEq] at hj
      subst hj
      have hnot : t.output_path ∉ rest.map (fun t => t.output_path) := by
        intro hmem
        obtain ⟨b, hb, hbp⟩ := List.mem_map.mp hmem
        exact hhead.1 b hb hbp.symm
      constructor
      · intro hoc
        simp only [Nat.add_zero] at hoc
        simp only [run_tasks]
        rw [run_tasks_fs_untouched inflate password archive outcomes rest
          (n + 1) _ _ hnot]
        simp [run_single_task, hoc, fs_lookup]
      · intro w hoc
        simp only [Nat.add_zero] at hoc
        simp only [run_tasks]
        rw [run_tasks_fs_untouched inflate password archive outcomes rest
          (n + 1) _ _ hnot]
        simp [run_single_task, hoc, fs_lookup]
    | j + 1 =>
      simp only [List.getElem?_cons_succ] at hj
      have := ih (n + 1) ((run_single_task fs t
        (entry_member_bytes inflate password archive t.file_info.zip_info)
        (outcomes n)).1) j u hhead.2 hj
      constructor
      · intro hoc
        simp only [run_tasks]
        exact this.1 (by rw [show n + 1 + j = n + (j + 1) by omega]; exact hoc)
      · intro w hoc
        simp only [run_tasks]
        exact this.2 w (by rw [show n + 1 + j = n + (j + 1) by omega]; exact hoc)

/-- Claim C9: per-entry extraction failures are isolated but not atomic.  If
task i raises after writing some bytes, its result is (False, name, 0), the
partially written bytes remain at its assigned output path (direct write to
the final path, no cleanup), every task with a successful outcome still
produces its full member bytes at its own path and a (True, name, size)
result, and the success counter counts exactly the successful tasks. -/
theorem claim_C9 (inflate : List Nat → List Nat) (password archive : List Nat)
    (outcomes : Nat → ExtractOutcome) (tasks : List ExtractTask)
    (hpaths : tasks.Pairwise (fun a b => a.output_path ≠ b.output_path))
    (i : Nat) (t : ExtractTask) (w : List Nat)
    (hi : tasks[i]? = some t)
    (hoc : outcomes i = ExtractOutcome.fail_during_write w) :
    (run_tasks inflate password archive outcomes 0 tasks []).2[i]? =
      some (false, t.file_info.safe_name, 0) ∧
    fs_lookup (run_tasks inflate password archive outcomes 0 tasks []).1
      t.output_path = some w ∧
    (∀ j u, tasks[j]? = some u → outcomes j = ExtractOutcome.ok →
      (run_tasks inflate password archive outcomes 0 tasks []).2[j]? =
        some (true, u.file_info.safe_name,
          (entry_member_bytes inflate password archive u.file_info.zip_info).length) ∧
      fs_lookup (run_tasks inflate password archive outcomes 0 tasks []).1
        u.output_path =
        some (entry_member_bytes inflate password archive u.file_info.zip_info)) ∧
    success_count (run_tasks inflate password archive outcomes 0 tasks []).2 =
      ((List.range tasks.length).filter
        (fun j => decide (outcomes j = ExtractOutcome.ok))).length ∧
    (run_tasks inflate password archive outcomes 0 tasks []).2.length =
      tasks.length := by
  refine ⟨?_, ?_, ?_, ?_, ?_⟩
  · rw [run_tasks_snd]
    rw [expected_results_get inflate password archive outcomes tasks 0 i t hi]
    rw [Nat.zero_add, hoc]
    rfl
  · exact (run_tasks_fs_at inflate password archive outcomes tasks 0 [] i t
      hpaths hi).2 w (by rwa [Nat.zero_add])
  · intro j u hj hocj
    refine ⟨?_, ?_⟩
    · rw [run_tasks_snd]
      rw [expected_results_get inflate password archive outcomes tasks 0 j u hj]
      rw [Nat.zero_add, hocj]
      rfl
    · exact (run_tasks_fs_at inflate password archive outcomes tasks 0 [] j u
        hpaths hj).1 (by rwa [Nat.zero_add])
  · rw [run_tasks_snd, success_count_expected, List.range_eq_range']
  · rw [run_tasks_snd, expected_results_length]

/-- Witness for claim C9: two tasks with distinct paths, the first succeeds
and the second fails mid-write; the partial bytes remain at the second path
and the first entry's full member bytes are at the first path. -/
theorem claim_C9_witness :
    fs_lookup (run_tasks id [] []
      (fun j => if j = 0 then ExtractOutcome.ok
        else ExtractOutcome.fail_during_write [1, 2]) 0
      [⟨⟨⟨0, 0, 0⟩, none, [97], 0⟩, [112, 97]⟩,
       ⟨⟨⟨1, 0, 0⟩, none, [98], 1⟩, [112, 98]⟩] []).1 [112, 98] = some [1, 2] ∧
    fs_lookup (run_tasks id [] []
      (fun j => if j = 0 then ExtractOutcome.ok
        else ExtractOutcome.fail_during_write [1, 2]) 0
      [⟨⟨⟨0, 0, 0⟩, none, [97], 0⟩, [112, 97]⟩,
       ⟨⟨⟨1, 0, 0⟩, none, [98], 1⟩, [112, 98]⟩] []).1 [112, 97] =
      some (entry_member_bytes id [] [] ⟨0, 0, 0⟩) :=
  ⟨(claim_C9 id [] []
      (fun j => if j = 0 then ExtractOutcome.ok
        else ExtractOutcome.fail_during_write [1, 2])
      [⟨⟨⟨0, 0, 0⟩, none, [97], 0⟩, [112, 97]⟩,
       ⟨⟨⟨1, 0, 0⟩, none, [98], 1⟩, [112, 98]⟩] (by decide) 1
      ⟨⟨⟨1, 0, 0⟩, none, [98], 1⟩, [112, 98]⟩ [1, 2]
      (by decide) (by decide)).2.1,
   ((claim_C9 id [] []
      (fun j => if j = 0 then ExtractOutcome.ok
        else ExtractOutcome.fail_during_write [1, 2])
      [⟨⟨⟨0, 0, 0⟩, none, [97], 0⟩, [112, 97]⟩,
       ⟨⟨⟨1, 0, 0⟩, none, [98], 1⟩, [112, 98]⟩] (by decide) 1
      ⟨⟨⟨1, 0, 0⟩, none, [98], 1⟩, [112, 98]⟩ [1, 2]
      (by decide) (by decide)).2.2.1 0
      ⟨⟨⟨0, 0, 0⟩, none, [97], 0⟩, [112, 97]⟩ (by decide) (by decide)).2⟩

end IPF
